import Mathlib

/-!
Shallow embedding of the spatial Prisoner's Dilemma engine (`SimplePDWorld`)
and of the run-queue bookkeeping (`QueueManager`) of this repository.

Conventions of the embedding:
* C++ `double` values are modelled as exact rationals, `size_t`/`int` as `Nat`.
  The one place where IEEE-754 behaviour itself is at issue — the division by
  a zero neighbour count in `CalcFitness` — gets a dedicated model,
  `calcFitnessIEEE`, in which the NaN produced by `0.0 / 0.0` is `none`.
* The random number generator is modelled as an oracle: `setup` receives the
  per-organism draws as a function, and each `repro` call receives the picked
  index and the roulette draw as arguments.  Theorems quantify over these.
* `emp::vector<Org>` is a `List Org`; an out-of-range read (undefined
  behaviour in C++) reads `defaultOrg` here, and an out-of-range write is
  dropped.  The well-formedness theorems show reachable states only ever
  read and write in range.
-/

namespace SimplePDWorld

/-- `struct Org` (simplepdworld.h): position, strategy, fitness, neighbor
indices. -/
structure Org where
  x : ℚ
  y : ℚ
  coop : Bool
  fitness : ℚ
  neighbors : List Nat
deriving DecidableEq

/-- The value an out-of-range `pop[i]` read yields in the model. -/
def defaultOrg : Org := { x := 0, y := 0, coop := false, fitness := 0, neighbors := [] }

/-- `pop[k]` with the out-of-range default. -/
def nth (p : List Org) (k : Nat) : Org := p.getD k defaultOrg

/-- The fields of `class SimplePDWorld` that the engine reads or writes
(`num_runs` is display-only bookkeeping and `random` is the oracle, so
neither is part of the state). -/
structure World where
  r : ℚ
  u : ℚ
  N : Nat
  E : Nat
  use_ave : Bool
  epoch : Nat
  r_sqr : ℚ
  pop : List Org
  payoff_CC : ℚ
  payoff_CD : ℚ
  payoff_DC : ℚ
  payoff_DD : ℚ
deriving DecidableEq

/-- The distance computation of the neighbor loop in `Setup`
(part_001 lines 115-119): `x_dist` is wrapped to the shorter arc, then the
second wrap statement is applied to `x_dist` again — `y_dist` is never
wrapped. -/
def distSqr (o1 o2 : Org) : ℚ :=
  let x_dist := |o1.x - o2.x|
  let x_dist := if x_dist > 1 - x_dist then 1 - x_dist else x_dist
  let y_dist := |o1.y - o2.y|
  let x_dist := if x_dist > 1 - x_dist then 1 - x_dist else x_dist
  x_dist * x_dist + y_dist * y_dist

/-- The wrap-to-the-shorter-arc transform as the spec words it. -/
def wrapDist (d : ℚ) : ℚ := if d > 1 - d then 1 - d else d

/-- Modelled from the spec's words for comparison with `distSqr` (the claim
asks for both coordinates wrapped on the torus). -/
def distSqrSpec (o1 o2 : Org) : ℚ :=
  wrapDist |o1.x - o2.x| * wrapDist |o1.x - o2.x| +
    wrapDist |o1.y - o2.y| * wrapDist |o1.y - o2.y|

/-- `org.neighbors.push_back(j)` on `pop[i]`. -/
def pushNeighbor (p : List Org) (i j : Nat) : List Org :=
  let o := nth p i
  p.set i { o with neighbors := o.neighbors ++ [j] }

/-- One iteration of the neighbor loop body in `Setup` (part_001 lines
113-125): if the pair is within the radius, record the edge in both lists,
outer organism first. -/
def edgeStep (r_sqr : ℚ) (p : List Org) (ij : Nat × Nat) : List Org :=
  if distSqr (nth p ij.1) (nth p ij.2) < r_sqr then
    pushNeighbor (pushNeighbor p ij.1 ij.2) ij.2 ij.1
  else p

/-- The pairs `(i, j)`, `j < i < N`, in the order the nested loops of
`Setup` visit them (outer index ascending, inner index ascending). -/
def setupPairs : Nat → List (Nat × Nat)
  | 0 => []
  | Nat.succ n => setupPairs n ++ (List.range n).map (fun j => (n, j))

/-- The whole neighbor-graph loop of `Setup`. -/
def addNeighbors (r_sqr : ℚ) (p : List Org) : List Org :=
  (setupPairs p.length).foldl (edgeStep r_sqr) p

/-- Proof infrastructure: the neighbor entries a prefix `L` of the pair list
contributes to agent `k`'s list, reading coordinates from `p`. -/
def contrib (rsq : ℚ) (p : List Org) : List (Nat × Nat) → Nat → List Nat
  | [], _ => []
  | ij :: L, k =>
    (if distSqr (nth p ij.1) (nth p ij.2) < rsq then
      (if k = ij.1 then [ij.2] else []) ++ (if k = ij.2 then [ij.1] else [])
     else []) ++ contrib rsq p L k

/-- The edge predicate `Setup` effectively decides for a pair of distinct
indices. -/
def nbrPred (rsq : ℚ) (p : List Org) (k j : Nat) : Bool :=
  decide (j ≠ k) && decide (distSqr (nth p k) (nth p j) < rsq)

/-- The value `CalcFitness` (part_001 lines 153-178) stores: neighbor
strategy counts, payoff row selected by the organism's own strategy
(`C_value`/`D_value` start at the cooperator row and are overwritten for a
defector), total payout, divided by the neighbor count under `use_ave`.
Rational division by a zero count yields `0` here; `calcFitnessIEEE` is the
companion model of that final division at IEEE semantics. -/
def fitnessVal (use_ave : Bool) (pCC pCD pDC pDD : ℚ) (p : List Org) (org : Org) : ℚ :=
  let cCount : Nat := org.neighbors.countP (fun n => (nth p n).coop)
  let dCount : Nat := org.neighbors.countP (fun n => !(nth p n).coop)
  let cValue : ℚ := if org.coop then pCC else pDC
  let dValue : ℚ := if org.coop then pCD else pDD
  let fit : ℚ := cValue * (cCount : ℚ) + dValue * (dCount : ℚ)
  if use_ave then fit / (org.neighbors.length : ℚ) else fit

/-- `SimplePDWorld::CalcFitness(id)`: store `fitnessVal` into `pop[id]`. -/
def calcFitness (w : World) (id : Nat) : World :=
  let org := nth w.pop id
  { w with
    pop := w.pop.set id
      { org with
        fitness := fitnessVal w.use_ave w.payoff_CC w.payoff_CD w.payoff_DC w.payoff_DD
          w.pop org } }

/-- `CalcFitness` with the final division modelled at IEEE-754 semantics:
for an isolated organism the stored total is exactly `0.0`, and
`0.0 / 0.0` is the quiet NaN, represented here by `none`; every other
path yields a finite value `some q`.  Used for the isolated-agent
boundary-case claim only. -/
def calcFitnessIEEE (use_ave : Bool) (pCC pCD pDC pDD : ℚ) (p : List Org) (org : Org) :
    Option ℚ :=
  let cCount : Nat := org.neighbors.countP (fun n => (nth p n).coop)
  let dCount : Nat := org.neighbors.countP (fun n => !(nth p n).coop)
  let cValue : ℚ := if org.coop then pCC else pDC
  let dValue : ℚ := if org.coop then pCD else pDD
  let fit : ℚ := cValue * (cCount : ℚ) + dValue * (dCount : ℚ)
  if use_ave then
    if org.neighbors.length = 0 then none else some (fit / (org.neighbors.length : ℚ))
  else some fit

/-- The accumulation loop over `org.neighbors` computing `total_fitness` in
`Repro` (part_001 lines 187-190). -/
def totalFitness (p : List Org) (ns : List Nat) : ℚ :=
  ns.foldl (fun acc n => acc + (nth p n).fitness) 0

/-- The selection walk of `Repro` (part_001 lines 199-205): subtract each
neighbor's fitness from `choice` in stored order; adopt the strategy of the
first neighbor whose fitness still exceeds the remaining draw. -/
def walkNeighbors (p : List Org) (ns : List Nat) (choice : ℚ) (cur : Bool) : Bool :=
  match ns with
  | [] => cur
  | n :: rest =>
    if choice < (nth p n).fitness then (nth p n).coop
    else walkNeighbors p rest (choice - (nth p n).fitness) cur

/-- The spec's reading of the same walk: the first neighbor whose cumulative
fitness (accumulated in `acc`) exceeds the draw, `none` when no neighbor's
cumulative share reaches it. -/
def firstCumAdopt (p : List Org) (ns : List Nat) (choice acc : ℚ) : Option Bool :=
  match ns with
  | [] => none
  | n :: rest =>
    if choice < acc + (nth p n).fitness then some (nth p n).coop
    else firstCumAdopt p rest choice (acc + (nth p n).fitness)

/-- The strategy `pop[id]` holds after the selection part of `Repro`
(part_001 lines 181-207), given the roulette draw `choice`. -/
def reproNewCoop (w : World) (id : Nat) (choice : ℚ) : Bool :=
  let org := nth w.pop id
  let total := totalFitness w.pop org.neighbors
  if total > 0 then
    if choice < total then walkNeighbors w.pop org.neighbors choice org.coop
    else org.coop
  else org.coop

/-- `SimplePDWorld::Repro()` at picked index `id` and roulette draw
`choice`: run the selection; if the strategy did not flip, return (lines
209-210); otherwise store the new strategy and recompute the fitness of the
focal organism and then of each of its neighbors (lines 212-218). -/
def repro (w : World) (id : Nat) (choice : ℚ) : World :=
  let org := nth w.pop id
  let newCoop := reproNewCoop w id choice
  if newCoop = org.coop then w
  else
    let w1 : World := { w with pop := w.pop.set id { org with coop := newCoop } }
    let w2 := calcFitness w1 id
    org.neighbors.foldl (fun acc n => calcFitness acc n) w2

/-- Proof infrastructure: the state of `Repro` right after `org.coop` is
overwritten by the walk's pick (before the fitness recomputations), used to
phrase the strategy-flip branch of `repro`. -/
def reproFlipBase (w : World) (id : Nat) (choice : ℚ) : World :=
  { w with pop := w.pop.set id { nth w.pop id with coop := reproNewCoop w id choice } }

/-- One epoch of `Run` (part_001 line 142-143): `N` calls to `Repro`, with
the `o`-th call's random pick and draw supplied by the oracle `d`, then
`epoch++`. -/
def epochStep (w : World) (d : Nat → Nat × ℚ) : World :=
  let w1 := (List.range w.N).foldl (fun acc o => repro acc (d o).1 (d o).2) w
  { w1 with epoch := w1.epoch + 1 }

/-- The `while (epoch < end_epoch)` loop of `Run`: `epoch` grows by one per
iteration and nothing else writes it, so the loop body runs exactly `k`
times for `end_epoch = epoch + k`.  The oracle is indexed by the epoch
counter at the start of each epoch. -/
def runEpochs (w : World) (k : Nat) (draws : Nat → Nat → Nat × ℚ) : World :=
  match k with
  | 0 => w
  | Nat.succ k1 => runEpochs (epochStep w (draws w.epoch)) k1 draws

/-- `SimplePDWorld::Run(steps)` (part_001 lines 137-145): cap `steps` at `E`
(the `steps = -1` default is a `size_t` sentinel larger than any budget, so
the cap also realises it), then run that many epochs. -/
def run (w : World) (steps : Nat) (draws : Nat → Nat → Nat × ℚ) : World :=
  let steps := if steps > w.E then w.E else steps
  runEpochs w steps draws

/-- `repro` instrumented with a counter of reproduction calls. -/
def reproCounted (wc : World × Nat) (id : Nat) (choice : ℚ) : World × Nat :=
  (repro wc.1 id choice, wc.2 + 1)

/-- `epochStep` instrumented with the reproduction-call counter. -/
def epochStepCounted (wc : World × Nat) (d : Nat → Nat × ℚ) : World × Nat :=
  let wc1 := (List.range wc.1.N).foldl (fun acc o => reproCounted acc (d o).1 (d o).2) wc
  ({ wc1.1 with epoch := wc1.1.epoch + 1 }, wc1.2)

/-- `runEpochs` instrumented with the reproduction-call counter. -/
def runEpochsCounted (wc : World × Nat) (k : Nat) (draws : Nat → Nat → Nat × ℚ) :
    World × Nat :=
  match k with
  | 0 => wc
  | Nat.succ k1 => runEpochsCounted (epochStepCounted wc (draws wc.1.epoch)) k1 draws

/-- `run` instrumented with the reproduction-call counter, starting at 0. -/
def runCounted (w : World) (steps : Nat) (draws : Nat → Nat → Nat × ℚ) : World × Nat :=
  let steps := if steps > w.E then w.E else steps
  runEpochsCounted (w, 0) steps draws

/-- The organism the initializer loop of `Setup` (part_001 lines 102-107)
writes at index `i`, with the oracle supplying `(x, y, coop)`. -/
def initOrg (draws : Nat → ℚ × ℚ × Bool) (i : Nat) : Org :=
  { x := (draws i).1, y := (draws i).2.1, coop := (draws i).2.2, fitness := 0,
    neighbors := [] }

/-- The freshly drawn population the initializer loop of `Setup` leaves
behind (`pop.resize(N)` + the per-organism loop: every field of every slot
is overwritten before it is read, so the previous population does not
matter). -/
def setupPop0 (N : Nat) (draws : Nat → ℚ × ℚ × Bool) : List Org :=
  (List.range N).map (initOrg draws)

/-- The state of `Setup` after the parameter stores, the payoff-table fill,
the initializer loop and the neighbor-graph loop — everything up to the
final fitness loop. -/
def setupInit (r u : ℚ) (N E : Nat) (ave : Bool) (draws : Nat → ℚ × ℚ × Bool) : World :=
  { r := r, u := u, N := N, E := E, use_ave := ave, epoch := 0, r_sqr := r * r,
    pop := addNeighbors (r * r) (setupPop0 N draws),
    payoff_CC := 1, payoff_CD := 0, payoff_DC := 1 + u, payoff_DD := u }

/-- `SimplePDWorld::Setup(_r, _u, _N, _E, _ave)` (part_001 lines 83-133):
store the parameters, reset `epoch`, derive `r_sqr`, fill the payoff table,
draw every organism fresh, build the neighbor graph (`setupInit`), then
compute every organism's initial fitness. -/
def setup (r u : ℚ) (N E : Nat) (ave : Bool) (draws : Nat → ℚ × ℚ × Bool) : World :=
  (List.range N).foldl (fun acc id => calcFitness acc id) (setupInit r u N E ave draws)

/-- `SimplePDWorld::Reset()` (part_001 line 135): `Setup(r, u, N, E)` — the
call passes only four of the five stored parameters, so `Setup`'s `_ave`
parameter takes its default value `false`. -/
def reset (w : World) (draws : Nat → ℚ × ℚ × Bool) : World :=
  setup w.r w.u w.N w.E false draws

/-- `SimplePDWorld::CountCoop()`. -/
def countCoop (w : World) : Nat := w.pop.countP (fun o => o.coop)

/-- Proof infrastructure: two states agree on every field other than the
population. -/
def scalarsEq (v w : World) : Prop :=
  v.r = w.r ∧ v.u = w.u ∧ v.N = w.N ∧ v.E = w.E ∧ v.use_ave = w.use_ave ∧
  v.epoch = w.epoch ∧ v.r_sqr = w.r_sqr ∧ v.payoff_CC = w.payoff_CC ∧
  v.payoff_CD = w.payoff_CD ∧ v.payoff_DC = w.payoff_DC ∧ v.payoff_DD = w.payoff_DD

/-- The states the engine can be in: a fresh `Setup`, or any state an
engine call (`Repro` directly, or a whole `Run`) produces from a reachable
one.  The oracles are universally quantified, so this covers every random
outcome. -/
inductive Reachable : World → Prop
  | ofSetup (r u : ℚ) (N E : Nat) (ave : Bool) (draws : Nat → ℚ × ℚ × Bool) :
      Reachable (setup r u N E ave draws)
  | ofRepro (w : World) (id : Nat) (choice : ℚ) :
      Reachable w → Reachable (repro w id choice)
  | ofRun (w : World) (steps : Nat) (draws : Nat → Nat → Nat × ℚ) :
      Reachable w → Reachable (run w steps draws)

/-- Stored fitness agrees with `fitnessVal` of the current strategies for
every agent — the consistency the spec demands of every state. -/
def fitnessConsistent (w : World) : Prop :=
  ∀ k, k < w.N →
    (nth w.pop k).fitness =
      fitnessVal w.use_ave w.payoff_CC w.payoff_CD w.payoff_DC w.payoff_DD w.pop
        (nth w.pop k)

/-- The structural invariant reachable states satisfy: population length,
well-formed and symmetric neighbor lists, the payoff table of `Setup`, and
fitness consistency. -/
structure StateOK (w : World) : Prop where
  len : w.pop.length = w.N
  nbrs_lt : ∀ k, k < w.N → ∀ j ∈ (nth w.pop k).neighbors, j < w.N
  nbrs_sorted : ∀ k, k < w.N → (nth w.pop k).neighbors.Pairwise (· < ·)
  nbrs_noself : ∀ k, k < w.N → k ∉ (nth w.pop k).neighbors
  symm : ∀ k j, k < w.N → j < w.N →
    (j ∈ (nth w.pop k).neighbors ↔ k ∈ (nth w.pop j).neighbors)
  fit : fitnessConsistent w
  pay : w.payoff_CC = 1 ∧ w.payoff_CD = 0 ∧ w.payoff_DC = 1 + w.u ∧ w.payoff_DD = w.u

/-- A fixed oracle for concrete witness states: every organism at the
origin, cooperating. -/
def demoDraws : Nat → ℚ × ℚ × Bool := fun _ => (0, 0, true)

/-- A fixed reproduction oracle for concrete witness states. -/
def demoReproDraws : Nat → Nat → Nat × ℚ := fun _ _ => (0, 0)

/-- A concrete reachable state used by the witnesses: two cooperating
organisms at the origin with radius 2, so the single pair is an edge. -/
def demoWorld : World := setup 2 0 2 1 false demoDraws

/-- Draws exhibiting the unwrapped second coordinate: two organisms that
are 0.02 apart across the torus seam in `y` (0.98 apart in raw `y`) and
aligned in `x`. -/
def wrapBugDraws : Nat → ℚ × ℚ × Bool := fun i =>
  if i = 0 then ((1 / 2 : ℚ), (1 / 100 : ℚ), true)
  else ((1 / 2 : ℚ), (99 / 100 : ℚ), true)

end SimplePDWorld

namespace QueueManager

/-- `struct RunInfo` (part_002 lines 449-463): one queued configuration and
its progress counters. -/
structure RunInfo where
  id : Nat
  r : ℚ
  u : ℚ
  N : Nat
  E : Nat
  cur_epoch : Nat
  num_coop : Nat
  num_defect : Nat
deriving DecidableEq

/-- The `std::queue<RunInfo> runs`, front of the queue at the head. -/
def IsEmpty (runs : List RunInfo) : Bool := runs.isEmpty

/-- The condition `emp_assert` checks in `QueueManager::RemoveRun` and
`QueueManager::FrontRun` as written in part_001 lines 310-320 (and the
duplicated copy at part_002 lines 491-501): the assertion's condition is
`IsEmpty()`, so it fires — `emp_assert` aborts when its condition is
false — exactly on a non-empty queue. -/
def removeRunAssertOld (runs : List RunInfo) : Bool := IsEmpty runs

/-- The condition `emp_assert` checks in `QueueManager::RemoveRun` and
`QueueManager::FrontRun` in part_002 lines 72-82: `!IsEmpty()`. -/
def removeRunAssertNew (runs : List RunInfo) : Bool := !(IsEmpty runs)

/-- A concrete queued run for the failing input. -/
def demoRun : RunInfo :=
  { id := 0, r := 0, u := 0, N := 0, E := 0, cur_epoch := 0, num_coop := 0,
    num_defect := 0 }

end QueueManager

/-! ## Theorems.  Basic access lemmas for the list model. -/

namespace SimplePDWorld

theorem nth_nil (k : Nat) : nth [] k = defaultOrg := by
  simp [nth]

theorem nth_cons_zero (a : Org) (p : List Org) : nth (a :: p) 0 = a := rfl

theorem nth_cons_succ (a : Org) (p : List Org) (k : Nat) : nth (a :: p) (k + 1) = nth p k := by
  simp [nth]

theorem nth_oob (p : List Org) (k : Nat) (h : p.length ≤ k) : nth p k = defaultOrg := by
  induction p generalizing k with
  | nil => simp [nth]
  | cons a p ih =>
    cases k with
    | zero => simp at h
    | succ k => rw [nth_cons_succ]; exact ih k (Nat.le_of_succ_le_succ h)

theorem nth_set_self (p : List Org) (k : Nat) (o : Org) (h : k < p.length) :
    nth (p.set k o) k = o := by
  induction p generalizing k with
  | nil => simp at h
  | cons a p ih =>
    cases k with
    | zero => rfl
    | succ k =>
      have : (a :: p).set (k + 1) o = a :: p.set k o := rfl
      rw [this, nth_cons_succ]
      exact ih k (Nat.lt_of_succ_lt_succ h)

theorem nth_set_ne (p : List Org) (i k : Nat) (o : Org) (h : i ≠ k) :
    nth (p.set i o) k = nth p k := by
  induction p generalizing i k with
  | nil => simp [List.set]
  | cons a p ih =>
    cases i with
    | zero =>
      cases k with
      | zero => exact absurd rfl h
      | succ k => rfl
    | succ i =>
      cases k with
      | zero => rfl
      | succ k =>
        have : (a :: p).set (i + 1) o = a :: p.set i o := rfl
        rw [this, nth_cons_succ, nth_cons_succ]
        exact ih i k (fun hh => h (by rw [hh]))

theorem set_oob (p : List Org) (i : Nat) (o : Org) (h : p.length ≤ i) : p.set i o = p := by
  induction p generalizing i with
  | nil => rfl
  | cons a p ih =>
    cases i with
    | zero => simp at h
    | succ i =>
      have : (a :: p).set (i + 1) o = a :: p.set i o := rfl
      rw [this, ih i (Nat.le_of_succ_le_succ h)]

theorem nth_map_range (f : Nat → Org) (n k : Nat) (h : k < n) :
    nth ((List.range n).map f) k = f k := by
  induction n with
  | zero => simp at h
  | succ n ih =>
    rw [List.range_succ, List.map_append]
    rcases Nat.lt_or_ge k n with hk | hk
    · rw [nth, List.getD_eq_getElem?_getD, List.getElem?_append_left (by simpa using hk)]
      have := ih hk
      rw [nth, List.getD_eq_getElem?_getD] at this
      exact this
    · have hkn : k = n := Nat.le_antisymm (Nat.le_of_lt_succ h) hk
      subst hkn
      rw [nth, List.getD_eq_getElem?_getD, List.getElem?_append_right (by simp)]
      simp

end SimplePDWorld

namespace SimplePDWorld

/-! ## The neighbor-graph construction loop. -/

theorem length_pushNeighbor (p : List Org) (i j : Nat) :
    (pushNeighbor p i j).length = p.length := by
  simp [pushNeighbor]

theorem length_edgeStep (rsq : ℚ) (p : List Org) (ij : Nat × Nat) :
    (edgeStep rsq p ij).length = p.length := by
  unfold edgeStep
  split
  · rw [length_pushNeighbor, length_pushNeighbor]
  · rfl

theorem nth_pushNeighbor (p : List Org) (i j k : Nat) :
    nth (pushNeighbor p i j) k =
      if k = i ∧ i < p.length then
        { nth p k with neighbors := (nth p k).neighbors ++ [j] }
      else nth p k := by
  unfold pushNeighbor
  by_cases hi : i < p.length
  · by_cases hk : k = i
    · subst hk
      rw [nth_set_self _ _ _ hi]
      simp [hi]
    · rw [nth_set_ne _ _ _ _ (fun h => hk h.symm)]
      simp [hk]
  · rw [set_oob _ _ _ (Nat.le_of_not_lt hi)]
    simp [hi]

theorem pushNeighbor_core (p : List Org) (i j k : Nat) :
    (nth (pushNeighbor p i j) k).x = (nth p k).x ∧
    (nth (pushNeighbor p i j) k).y = (nth p k).y ∧
    (nth (pushNeighbor p i j) k).coop = (nth p k).coop ∧
    (nth (pushNeighbor p i j) k).fitness = (nth p k).fitness := by
  rw [nth_pushNeighbor]
  split
  · exact ⟨rfl, rfl, rfl, rfl⟩
  · exact ⟨rfl, rfl, rfl, rfl⟩

theorem edgeStep_core (rsq : ℚ) (p : List Org) (ij : Nat × Nat) (k : Nat) :
    (nth (edgeStep rsq p ij) k).x = (nth p k).x ∧
    (nth (edgeStep rsq p ij) k).y = (nth p k).y ∧
    (nth (edgeStep rsq p ij) k).coop = (nth p k).coop ∧
    (nth (edgeStep rsq p ij) k).fitness = (nth p k).fitness := by
  unfold edgeStep
  split
  · obtain ⟨a1, a2, a3, a4⟩ := pushNeighbor_core (pushNeighbor p ij.1 ij.2) ij.2 ij.1 k
    obtain ⟨b1, b2, b3, b4⟩ := pushNeighbor_core p ij.1 ij.2 k
    exact ⟨a1.trans b1, a2.trans b2, a3.trans b3, a4.trans b4⟩
  · exact ⟨rfl, rfl, rfl, rfl⟩

theorem nth_edgeStep_neighbors (rsq : ℚ) (p : List Org) (i j k : Nat)
    (hi : i < p.length) (hj : j < p.length) (hij : i ≠ j) :
    (nth (edgeStep rsq p (i, j)) k).neighbors =
      (nth p k).neighbors ++
        (if distSqr (nth p i) (nth p j) < rsq then
          (if k = i then [j] else []) ++ (if k = j then [i] else [])
         else []) := by
  unfold edgeStep
  split
  · rw [nth_pushNeighbor, length_pushNeighbor, nth_pushNeighbor]
    by_cases hkj : k = j
    · subst hkj
      have hki : ¬ (k = i) := fun h => hij (h.symm)
      simp [hj, hki]
    · by_cases hki : k = i
      · subst hki
        simp [hi, hkj]
      · simp [hki, hkj]
  · simp

theorem distSqr_congr (o1 o2 q1 q2 : Org) (hx1 : o1.x = q1.x) (hy1 : o1.y = q1.y)
    (hx2 : o2.x = q2.x) (hy2 : o2.y = q2.y) : distSqr o1 o2 = distSqr q1 q2 := by
  unfold distSqr
  rw [hx1, hy1, hx2, hy2]

theorem distSqr_comm (o1 o2 : Org) : distSqr o1 o2 = distSqr o2 o1 := by
  unfold distSqr
  rw [abs_sub_comm o1.x o2.x, abs_sub_comm o1.y o2.y]

theorem contrib_congr (rsq : ℚ) (p q : List Org) (L : List (Nat × Nat)) (k : Nat)
    (h : ∀ m, (nth p m).x = (nth q m).x ∧ (nth p m).y = (nth q m).y) :
    contrib rsq p L k = contrib rsq q L k := by
  induction L with
  | nil => rfl
  | cons ij L ih =>
    show (if distSqr (nth p ij.1) (nth p ij.2) < rsq then _ else _) ++ contrib rsq p L k = _
    rw [ih, distSqr_congr (nth p ij.1) (nth p ij.2) (nth q ij.1) (nth q ij.2)
      (h ij.1).1 (h ij.1).2 (h ij.2).1 (h ij.2).2]
    rfl

theorem nth_edgeFold (rsq : ℚ) (L : List (Nat × Nat)) (p : List Org) (k : Nat)
    (hL : ∀ ij ∈ L, ij.1 < p.length ∧ ij.2 < p.length ∧ ij.1 ≠ ij.2) :
    (L.foldl (edgeStep rsq) p).length = p.length ∧
    ((nth (L.foldl (edgeStep rsq) p) k).x = (nth p k).x ∧
     (nth (L.foldl (edgeStep rsq) p) k).y = (nth p k).y ∧
     (nth (L.foldl (edgeStep rsq) p) k).coop = (nth p k).coop ∧
     (nth (L.foldl (edgeStep rsq) p) k).fitness = (nth p k).fitness) ∧
    (nth (L.foldl (edgeStep rsq) p) k).neighbors =
      (nth p k).neighbors ++ contrib rsq p L k := by
  induction L generalizing p with
  | nil => simp [contrib]
  | cons ij L ih =>
    obtain ⟨hi, hj, hij⟩ := hL ij (List.mem_cons_self ij L)
    have hcore : ∀ m, (nth (edgeStep rsq p ij) m).x = (nth p m).x ∧
        (nth (edgeStep rsq p ij) m).y = (nth p m).y ∧
        (nth (edgeStep rsq p ij) m).coop = (nth p m).coop ∧
        (nth (edgeStep rsq p ij) m).fitness = (nth p m).fitness :=
      fun m => edgeStep_core rsq p ij m
    have hL1 : ∀ ab ∈ L, ab.1 < (edgeStep rsq p ij).length ∧
        ab.2 < (edgeStep rsq p ij).length ∧ ab.1 ≠ ab.2 := by
      intro ab hab
      rw [length_edgeStep]
      exact hL ab (List.mem_cons_of_mem ij hab)
    obtain ⟨ihlen, ihcore, ihnbrs⟩ := ih (edgeStep rsq p ij) hL1
    rw [List.foldl_cons]
    refine ⟨ihlen.trans (length_edgeStep rsq p ij), ?_, ?_⟩
    · obtain ⟨c1, c2, c3, c4⟩ := ihcore
      obtain ⟨d1, d2, d3, d4⟩ := hcore k
      exact ⟨c1.trans d1, c2.trans d2, c3.trans d3, c4.trans d4⟩
    · rw [ihnbrs]
      have hcg : contrib rsq (edgeStep rsq p ij) L k = contrib rsq p L k :=
        contrib_congr rsq _ p L k (fun m => ⟨(hcore m).1, (hcore m).2.1⟩)
      rw [hcg]
      have hstep := nth_edgeStep_neighbors rsq p ij.1 ij.2 k hi hj hij
      show (nth (edgeStep rsq p (ij.1, ij.2)) k).neighbors ++ contrib rsq p L k =
        (nth p k).neighbors ++ contrib rsq p (ij :: L) k
      rw [hstep]
      show _ = (nth p k).neighbors ++
        ((if distSqr (nth p ij.1) (nth p ij.2) < rsq then
          (if k = ij.1 then [ij.2] else []) ++ (if k = ij.2 then [ij.1] else [])
         else []) ++ contrib rsq p L k)
      rw [List.append_assoc]

end SimplePDWorld

namespace SimplePDWorld

/-! ## Characterizing the pair list and its contributions. -/

theorem mem_setupPairs (N : Nat) (ij : Nat × Nat) :
    ij ∈ setupPairs N ↔ ij.2 < ij.1 ∧ ij.1 < N := by
  induction N with
  | zero => simp [setupPairs]
  | succ n ih =>
    rw [setupPairs, List.mem_append, ih]
    constructor
    · rintro (h | h)
      · exact ⟨h.1, Nat.lt_succ_of_lt h.2⟩
      · obtain ⟨j, hj, hje⟩ := List.mem_map.mp h
        rw [← hje]
        exact ⟨by simpa using hj, Nat.lt_succ_self n⟩
    · rintro ⟨h1, h2⟩
      rcases Nat.lt_or_ge ij.1 n with hn | hn
      · exact Or.inl ⟨h1, hn⟩
      · have : ij.1 = n := by omega
        refine Or.inr (List.mem_map.mpr ⟨ij.2, by simpa using (this ▸ h1), ?_⟩)
        rw [← this]

theorem filter_eq_range (n k : Nat) :
    (List.range n).filter (fun j => decide (j = k)) = if k < n then [k] else [] := by
  induction n with
  | zero => simp
  | succ n ih =>
    rw [List.range_succ, List.filter_append, ih]
    by_cases h : k < n
    · have h2 : ¬ (n = k) := by omega
      have h3 : k < n + 1 := by omega
      simp [h, h2, h3]
    · by_cases hk : n = k
      · subst hk
        simp [h]
      · have h3 : ¬ (k < n + 1) := by omega
        simp [h, hk, h3]

theorem contrib_append (rsq : ℚ) (p : List Org) (L1 L2 : List (Nat × Nat)) (k : Nat) :
    contrib rsq p (L1 ++ L2) k = contrib rsq p L1 k ++ contrib rsq p L2 k := by
  induction L1 with
  | nil => rfl
  | cons ij L ih =>
    show (if _ then _ else _) ++ contrib rsq p (L ++ L2) k = _
    rw [ih]
    show _ = ((if _ then _ else _) ++ contrib rsq p L k) ++ contrib rsq p L2 k
    rw [List.append_assoc]

theorem contrib_nil_of_not_mem (rsq : ℚ) (p : List Org) (L : List (Nat × Nat)) (k : Nat)
    (h : ∀ ij ∈ L, ij.1 ≠ k ∧ ij.2 ≠ k) : contrib rsq p L k = [] := by
  induction L with
  | nil => rfl
  | cons ij L ih =>
    obtain ⟨h1, h2⟩ := h ij (List.mem_cons_self ij L)
    have hne1 : ¬ (k = ij.1) := fun he => h1 he.symm
    have hne2 : ¬ (k = ij.2) := fun he => h2 he.symm
    show (if _ then _ else _) ++ contrib rsq p L k = []
    rw [ih (fun a ha => h a (List.mem_cons_of_mem ij ha))]
    simp [hne1, hne2]

theorem contrib_block_self (rsq : ℚ) (p : List Org) (i : Nat) (l : List Nat)
    (hl : ∀ j ∈ l, j ≠ i) :
    contrib rsq p (l.map (fun j => (i, j))) i =
      l.filter (fun j => decide (distSqr (nth p i) (nth p j) < rsq)) := by
  induction l with
  | nil => rfl
  | cons j l ih =>
    have hji : j ≠ i := hl j (List.mem_cons_self j l)
    have hij : ¬ (i = j) := fun h => hji h.symm
    have ihl := ih (fun a ha => hl a (List.mem_cons_of_mem j ha))
    show (if distSqr (nth p i) (nth p j) < rsq then _ else _) ++ _ = _
    by_cases hg : distSqr (nth p i) (nth p j) < rsq
    · simp [hg, hij, ihl, List.filter_cons]
    · simp [hg, hij, ihl, List.filter_cons]

theorem contrib_block_ne (rsq : ℚ) (p : List Org) (i k : Nat) (hki : k ≠ i)
    (l : List Nat) :
    contrib rsq p (l.map (fun j => (i, j))) k =
      if distSqr (nth p i) (nth p k) < rsq then
        (l.filter (fun j => decide (j = k))).map (fun _ => i)
      else [] := by
  induction l with
  | nil => simp [contrib]
  | cons j l ih =>
    show (if distSqr (nth p i) (nth p j) < rsq then _ else _) ++ _ = _
    by_cases hjk : j = k
    · subst hjk
      by_cases hg : distSqr (nth p i) (nth p j) < rsq
      · simp [hg, hki, ih, List.filter_cons]
      · simp [hg, hki, ih, List.filter_cons]
    · have hkj : ¬ (k = j) := fun h => hjk h.symm
      by_cases hg : distSqr (nth p i) (nth p j) < rsq
      · simp [hg, hki, hkj, ih, List.filter_cons, hjk]
      · simp [hg, hki, hkj, ih, List.filter_cons, hjk]

theorem contrib_setupPairs (rsq : ℚ) (p : List Org) (N k : Nat) (hk : k < N) :
    contrib rsq p (setupPairs N) k = (List.range N).filter (nbrPred rsq p k) := by
  induction N with
  | zero => omega
  | succ n ih =>
    rw [setupPairs, contrib_append, List.range_succ, List.filter_append]
    rcases Nat.lt_or_ge k n with hkn | hkn
    · rw [ih hkn]
      have hkne : k ≠ n := by omega
      rw [contrib_block_ne rsq p n k hkne, filter_eq_range]
      have hsym : distSqr (nth p n) (nth p k) = distSqr (nth p k) (nth p n) :=
        distSqr_comm _ _
      have hnk : n ≠ k := by omega
      by_cases hg : distSqr (nth p k) (nth p n) < rsq
      · simp [nbrPred, hg, hsym, hkn, hnk]
      · simp [nbrPred, hg, hsym, hkn, hnk]
    · have hkeq : k = n := by omega
      subst hkeq
      rw [contrib_nil_of_not_mem rsq p (setupPairs k) k
        (fun ij hij => by
          obtain ⟨hlt, hltN⟩ := (mem_setupPairs k ij).mp hij
          omega)]
      rw [contrib_block_self rsq p k (List.range k)
        (fun j hj => by simp at hj; omega)]
      have hfc : (List.range k).filter (nbrPred rsq p k) =
          (List.range k).filter (fun j => decide (distSqr (nth p k) (nth p j) < rsq)) := by
        apply List.filter_congr
        intro a ha
        simp at ha
        have hak : a ≠ k := by omega
        simp [nbrPred, hak]
      rw [hfc]
      simp [nbrPred]

end SimplePDWorld

namespace SimplePDWorld

/-! ## CalcFitness as a state update. -/

theorem length_calcFitness (w : World) (id : Nat) :
    (calcFitness w id).pop.length = w.pop.length := by
  simp [calcFitness]

theorem calcFitness_scalars (w : World) (id : Nat) : scalarsEq (calcFitness w id) w :=
  ⟨rfl, rfl, rfl, rfl, rfl, rfl, rfl, rfl, rfl, rfl, rfl⟩

theorem scalarsEq_trans (v w z : World) (h1 : scalarsEq v w) (h2 : scalarsEq w z) :
    scalarsEq v z := by
  obtain ⟨a1, a2, a3, a4, a5, a6, a7, a8, a9, a10, a11⟩ := h1
  obtain ⟨b1, b2, b3, b4, b5, b6, b7, b8, b9, b10, b11⟩ := h2
  exact ⟨a1.trans b1, a2.trans b2, a3.trans b3, a4.trans b4, a5.trans b5, a6.trans b6,
    a7.trans b7, a8.trans b8, a9.trans b9, a10.trans b10, a11.trans b11⟩

theorem nth_calcFitness (w : World) (id k : Nat) :
    nth (calcFitness w id).pop k =
      if k = id ∧ id < w.pop.length then
        { nth w.pop k with
          fitness := fitnessVal w.use_ave w.payoff_CC w.payoff_CD w.payoff_DC w.payoff_DD
            w.pop (nth w.pop k) }
      else nth w.pop k := by
  unfold calcFitness
  by_cases hi : id < w.pop.length
  · by_cases hk : k = id
    · subst hk
      rw [show ({ w with pop := w.pop.set k { nth w.pop k with fitness := _ } } : World).pop =
        w.pop.set k { nth w.pop k with
          fitness := fitnessVal w.use_ave w.payoff_CC w.payoff_CD w.payoff_DC w.payoff_DD
            w.pop (nth w.pop k) } from rfl]
      rw [nth_set_self _ _ _ hi]
      simp [hi]
    · show nth (w.pop.set id _) k = _
      rw [nth_set_ne _ _ _ _ (fun h => hk h.symm)]
      simp [hk]
  · show nth (w.pop.set id _) k = _
    rw [set_oob _ _ _ (Nat.le_of_not_lt hi)]
    simp [hi]

theorem calcFitness_coop (w : World) (id a : Nat) :
    (nth (calcFitness w id).pop a).coop = (nth w.pop a).coop := by
  rw [nth_calcFitness]
  split
  · rfl
  · rfl

theorem calcFitness_neighbors (w : World) (id a : Nat) :
    (nth (calcFitness w id).pop a).neighbors = (nth w.pop a).neighbors := by
  rw [nth_calcFitness]
  split
  · rfl
  · rfl

theorem calcFitness_xy (w : World) (id a : Nat) :
    (nth (calcFitness w id).pop a).x = (nth w.pop a).x ∧
    (nth (calcFitness w id).pop a).y = (nth w.pop a).y := by
  rw [nth_calcFitness]
  split
  · exact ⟨rfl, rfl⟩
  · exact ⟨rfl, rfl⟩

theorem fitnessVal_congr (ave : Bool) (pCC pCD pDC pDD : ℚ) (p q : List Org) (o1 o2 : Org)
    (hc : o1.coop = o2.coop) (hn : o1.neighbors = o2.neighbors)
    (hp : ∀ n ∈ o2.neighbors, (nth p n).coop = (nth q n).coop) :
    fitnessVal ave pCC pCD pDC pDD p o1 = fitnessVal ave pCC pCD pDC pDD q o2 := by
  unfold fitnessVal
  rw [hc, hn]
  have h1 : o2.neighbors.countP (fun n => (nth p n).coop) =
      o2.neighbors.countP (fun n => (nth q n).coop) :=
    List.countP_congr (fun a ha => by rw [hp a ha])
  have h2 : o2.neighbors.countP (fun n => !(nth p n).coop) =
      o2.neighbors.countP (fun n => !(nth q n).coop) :=
    List.countP_congr (fun a ha => by rw [hp a ha])
  rw [h1, h2]

end SimplePDWorld

namespace SimplePDWorld

theorem length_foldCalc (ms : List Nat) (w : World) :
    ((ms.foldl (fun acc n => calcFitness acc n) w)).pop.length = w.pop.length := by
  induction ms generalizing w with
  | nil => rfl
  | cons n ms ih =>
    rw [List.foldl_cons, ih (calcFitness w n), length_calcFitness]

theorem foldCalc_scalars (ms : List Nat) (w : World) :
    scalarsEq (ms.foldl (fun acc n => calcFitness acc n) w) w := by
  induction ms generalizing w with
  | nil => exact ⟨rfl, rfl, rfl, rfl, rfl, rfl, rfl, rfl, rfl, rfl, rfl⟩
  | cons n ms ih =>
    rw [List.foldl_cons]
    exact scalarsEq_trans _ _ _ (ih (calcFitness w n)) (calcFitness_scalars w n)

theorem nth_foldCalc (ms : List Nat) (w : World) (hms : ∀ n ∈ ms, n < w.pop.length)
    (m : Nat) :
    nth ((ms.foldl (fun acc n => calcFitness acc n) w)).pop m =
      if m ∈ ms then
        { nth w.pop m with
          fitness := fitnessVal w.use_ave w.payoff_CC w.payoff_CD w.payoff_DC w.payoff_DD
            w.pop (nth w.pop m) }
      else nth w.pop m := by
  induction ms generalizing w with
  | nil => simp
  | cons n ms ih =>
    have hn_len : n < w.pop.length := hms n (List.mem_cons_self n ms)
    have hms1 : ∀ a ∈ ms, a < (calcFitness w n).pop.length := by
      rw [length_calcFitness]
      exact fun a ha => hms a (List.mem_cons_of_mem n ha)
    have hval : fitnessVal (calcFitness w n).use_ave (calcFitness w n).payoff_CC
        (calcFitness w n).payoff_CD (calcFitness w n).payoff_DC (calcFitness w n).payoff_DD
        (calcFitness w n).pop (nth (calcFitness w n).pop m) =
        fitnessVal w.use_ave w.payoff_CC w.payoff_CD w.payoff_DC w.payoff_DD
          w.pop (nth w.pop m) :=
      fitnessVal_congr w.use_ave w.payoff_CC w.payoff_CD w.payoff_DC w.payoff_DD
        (calcFitness w n).pop w.pop _ _ (calcFitness_coop w n m)
        (calcFitness_neighbors w n m) (fun a _ => calcFitness_coop w n a)
    rw [List.foldl_cons, ih (calcFitness w n) hms1, hval, nth_calcFitness w n m]
    by_cases hmn : m = n
    · subst hmn
      by_cases hm : m ∈ ms
      · simp [hn_len, hm]
      · simp [hn_len, hm]
    · by_cases hm : m ∈ ms
      · simp [hmn, hm]
      · simp [hmn, hm]

end SimplePDWorld

namespace SimplePDWorld

/-! ## The population `Setup` produces. -/

theorem length_edgeFold (rsq : ℚ) (L : List (Nat × Nat)) (p : List Org) :
    (L.foldl (edgeStep rsq) p).length = p.length := by
  induction L generalizing p with
  | nil => rfl
  | cons ij L ih =>
    rw [List.foldl_cons, ih (edgeStep rsq p ij), length_edgeStep]

theorem length_addNeighbors (rsq : ℚ) (p : List Org) :
    (addNeighbors rsq p).length = p.length := by
  unfold addNeighbors
  rw [length_edgeFold]

theorem length_setupPop0 (N : Nat) (draws : Nat → ℚ × ℚ × Bool) :
    (setupPop0 N draws).length = N := by
  simp [setupPop0]

theorem nth_setupPop0 (N : Nat) (draws : Nat → ℚ × ℚ × Bool) (k : Nat) (hk : k < N) :
    nth (setupPop0 N draws) k = initOrg draws k := by
  unfold setupPop0
  exact nth_map_range _ _ _ hk

theorem nth_setupPop1 (rsq : ℚ) (N : Nat) (draws : Nat → ℚ × ℚ × Bool) (k : Nat)
    (hk : k < N) :
    (nth (addNeighbors rsq (setupPop0 N draws)) k).x = (draws k).1 ∧
    (nth (addNeighbors rsq (setupPop0 N draws)) k).y = (draws k).2.1 ∧
    (nth (addNeighbors rsq (setupPop0 N draws)) k).coop = (draws k).2.2 ∧
    (nth (addNeighbors rsq (setupPop0 N draws)) k).fitness = 0 ∧
    (nth (addNeighbors rsq (setupPop0 N draws)) k).neighbors =
      (List.range N).filter (nbrPred rsq (setupPop0 N draws) k) := by
  have hlen0 : (setupPop0 N draws).length = N := length_setupPop0 N draws
  have hL : ∀ ij ∈ setupPairs (setupPop0 N draws).length,
      ij.1 < (setupPop0 N draws).length ∧ ij.2 < (setupPop0 N draws).length ∧
        ij.1 ≠ ij.2 := by
    intro ij hij
    obtain ⟨h1, h2⟩ := (mem_setupPairs _ ij).mp hij
    omega
  obtain ⟨hl, ⟨hx, hy, hc, hf⟩, hnbr⟩ :=
    nth_edgeFold rsq (setupPairs (setupPop0 N draws).length) (setupPop0 N draws) k hL
  have hnth0 : nth (setupPop0 N draws) k = initOrg draws k := nth_setupPop0 N draws k hk
  unfold addNeighbors
  refine ⟨?_, ?_, ?_, ?_, ?_⟩
  · rw [hx, hnth0]; rfl
  · rw [hy, hnth0]; rfl
  · rw [hc, hnth0]; rfl
  · rw [hf, hnth0]; rfl
  · rw [hnbr, hnth0]
    show ([] : List Nat) ++ _ = _
    rw [List.nil_append, hlen0, contrib_setupPairs rsq (setupPop0 N draws) N k hk]

theorem setup_scalars (r u : ℚ) (N E : Nat) (ave : Bool) (draws : Nat → ℚ × ℚ × Bool) :
    (setup r u N E ave draws).r = r ∧ (setup r u N E ave draws).u = u ∧
    (setup r u N E ave draws).N = N ∧ (setup r u N E ave draws).E = E ∧
    (setup r u N E ave draws).use_ave = ave ∧ (setup r u N E ave draws).epoch = 0 ∧
    (setup r u N E ave draws).r_sqr = r * r ∧
    (setup r u N E ave draws).payoff_CC = 1 ∧ (setup r u N E ave draws).payoff_CD = 0 ∧
    (setup r u N E ave draws).payoff_DC = 1 + u ∧
    (setup r u N E ave draws).payoff_DD = u := by
  obtain ⟨h1, h2, h3, h4, h5, h6, h7, h8, h9, h10, h11⟩ :=
    foldCalc_scalars (List.range N) (setupInit r u N E ave draws)
  exact ⟨h1, h2, h3, h4, h5, h6, h7, h8, h9, h10, h11⟩

theorem setup_pop_length (r u : ℚ) (N E : Nat) (ave : Bool)
    (draws : Nat → ℚ × ℚ × Bool) : (setup r u N E ave draws).pop.length = N := by
  unfold setup
  rw [length_foldCalc]
  show (addNeighbors (r * r) (setupPop0 N draws)).length = N
  rw [length_addNeighbors, length_setupPop0]

theorem setupInit_mem_len (r u : ℚ) (N E : Nat) (ave : Bool)
    (draws : Nat → ℚ × ℚ × Bool) :
    ∀ n ∈ List.range N, n < (setupInit r u N E ave draws).pop.length := by
  intro n hn
  show n < (addNeighbors (r * r) (setupPop0 N draws)).length
  rw [length_addNeighbors, length_setupPop0]
  simpa using hn

theorem nth_setup (r u : ℚ) (N E : Nat) (ave : Bool) (draws : Nat → ℚ × ℚ × Bool)
    (k : Nat) (hk : k < N) :
    nth (setup r u N E ave draws).pop k =
      { nth (setupInit r u N E ave draws).pop k with
        fitness := fitnessVal ave 1 0 (1 + u) u (setupInit r u N E ave draws).pop
          (nth (setupInit r u N E ave draws).pop k) } := by
  unfold setup
  rw [nth_foldCalc (List.range N) (setupInit r u N E ave draws)
    (setupInit_mem_len r u N E ave draws) k]
  simp only [List.mem_range, hk, if_true]
  rfl

theorem setup_core (r u : ℚ) (N E : Nat) (ave : Bool) (draws : Nat → ℚ × ℚ × Bool)
    (k : Nat) (hk : k < N) :
    (nth (setup r u N E ave draws).pop k).x = (draws k).1 ∧
    (nth (setup r u N E ave draws).pop k).y = (draws k).2.1 ∧
    (nth (setup r u N E ave draws).pop k).coop = (draws k).2.2 ∧
    (nth (setup r u N E ave draws).pop k).neighbors =
      (List.range N).filter (nbrPred (r * r) (setupPop0 N draws) k) := by
  obtain ⟨hx, hy, hc, hf, hn⟩ := nth_setupPop1 (r * r) N draws k hk
  rw [nth_setup r u N E ave draws k hk]
  exact ⟨hx, hy, hc, hn⟩

end SimplePDWorld

namespace SimplePDWorld

theorem setup_mem_neighbors (r u : ℚ) (N E : Nat) (ave : Bool)
    (draws : Nat → ℚ × ℚ × Bool) (k j : Nat) (hk : k < N) :
    j ∈ (nth (setup r u N E ave draws).pop k).neighbors ↔
      j < N ∧ j ≠ k ∧
        distSqr (nth (setupPop0 N draws) k) (nth (setupPop0 N draws) j) < r * r := by
  rw [(setup_core r u N E ave draws k hk).2.2.2]
  simp [List.mem_filter, nbrPred, and_assoc]

theorem setup_coop_eq_init (r u : ℚ) (N E : Nat) (ave : Bool)
    (draws : Nat → ℚ × ℚ × Bool) (m : Nat) (hm : m < N) :
    (nth (setup r u N E ave draws).pop m).coop =
      (nth (setupInit r u N E ave draws).pop m).coop := by
  rw [nth_setup r u N E ave draws m hm]

theorem setup_neighbors_eq_init (r u : ℚ) (N E : Nat) (ave : Bool)
    (draws : Nat → ℚ × ℚ × Bool) (m : Nat) (hm : m < N) :
    (nth (setup r u N E ave draws).pop m).neighbors =
      (nth (setupInit r u N E ave draws).pop m).neighbors := by
  rw [nth_setup r u N E ave draws m hm]

theorem setup_fitnessConsistent (r u : ℚ) (N E : Nat) (ave : Bool)
    (draws : Nat → ℚ × ℚ × Bool) : fitnessConsistent (setup r u N E ave draws) := by
  obtain ⟨hr, hu, hN, hE, hAve, hep, hrs, hCC, hCD, hDC, hDD⟩ :=
    setup_scalars r u N E ave draws
  intro k hk0
  have hk : k < N := by rw [hN] at hk0; exact hk0
  have hfit : (nth (setup r u N E ave draws).pop k).fitness =
      fitnessVal ave 1 0 (1 + u) u (setupInit r u N E ave draws).pop
        (nth (setupInit r u N E ave draws).pop k) := by
    rw [nth_setup r u N E ave draws k hk]
  rw [hfit, hAve, hCC, hCD, hDC, hDD]
  apply fitnessVal_congr
  · exact (setup_coop_eq_init r u N E ave draws k hk).symm
  · exact (setup_neighbors_eq_init r u N E ave draws k hk).symm
  · intro n hn
    have hn1 : n ∈ (nth (setupInit r u N E ave draws).pop k).neighbors := by
      rw [← setup_neighbors_eq_init r u N E ave draws k hk]
      exact hn
    have hn2 : n ∈ (List.range N).filter (nbrPred (r * r) (setupPop0 N draws) k) := by
      have hb : (nth (setupInit r u N E ave draws).pop k).neighbors =
          (List.range N).filter (nbrPred (r * r) (setupPop0 N draws) k) :=
        (nth_setupPop1 (r * r) N draws k hk).2.2.2.2
      rw [← hb]
      exact hn1
    have hnN : n < N := by simpa using (List.mem_filter.mp hn2).1
    exact (setup_coop_eq_init r u N E ave draws n hnN).symm

theorem setup_StateOK (r u : ℚ) (N E : Nat) (ave : Bool)
    (draws : Nat → ℚ × ℚ × Bool) : StateOK (setup r u N E ave draws) := by
  obtain ⟨hr, hu, hN, hE, hAve, hep, hrs, hCC, hCD, hDC, hDD⟩ :=
    setup_scalars r u N E ave draws
  refine ⟨?_, ?_, ?_, ?_, ?_, ?_, ?_⟩
  · rw [setup_pop_length, hN]
  · intro k hk0 j hj
    have hk : k < N := by rw [hN] at hk0; exact hk0
    have := (setup_mem_neighbors r u N E ave draws k j hk).mp hj
    rw [hN]
    exact this.1
  · intro k hk0
    have hk : k < N := by rw [hN] at hk0; exact hk0
    rw [(setup_core r u N E ave draws k hk).2.2.2]
    exact (List.pairwise_lt_range N).filter _
  · intro k hk0 hmem
    have hk : k < N := by rw [hN] at hk0; exact hk0
    have := (setup_mem_neighbors r u N E ave draws k k hk).mp hmem
    exact this.2.1 rfl
  · intro k j hk0 hj0
    have hk : k < N := by rw [hN] at hk0; exact hk0
    have hj : j < N := by rw [hN] at hj0; exact hj0
    rw [setup_mem_neighbors r u N E ave draws k j hk,
      setup_mem_neighbors r u N E ave draws j k hj]
    constructor
    · rintro ⟨h1, h2, h3⟩
      exact ⟨hk, fun he => h2 he.symm, by rw [distSqr_comm]; exact h3⟩
    · rintro ⟨h1, h2, h3⟩
      exact ⟨hj, fun he => h2 he.symm, by rw [distSqr_comm]; exact h3⟩
  · exact setup_fitnessConsistent r u N E ave draws
  · exact ⟨hCC, hCD, by rw [hDC, hu], by rw [hDD, hu]⟩

end SimplePDWorld


namespace SimplePDWorld

/-! ## Repro as a state update. -/

theorem scalarsEq_refl (w : World) : scalarsEq w w :=
  ⟨rfl, rfl, rfl, rfl, rfl, rfl, rfl, rfl, rfl, rfl, rfl⟩

theorem foldCalc_coop (ms : List Nat) (w : World) (m : Nat) :
    (nth ((ms.foldl (fun acc n => calcFitness acc n) w)).pop m).coop =
      (nth w.pop m).coop := by
  induction ms generalizing w with
  | nil => rfl
  | cons n ms ih =>
    rw [List.foldl_cons, ih (calcFitness w n), calcFitness_coop]

theorem foldCalc_neighbors (ms : List Nat) (w : World) (m : Nat) :
    (nth ((ms.foldl (fun acc n => calcFitness acc n) w)).pop m).neighbors =
      (nth w.pop m).neighbors := by
  induction ms generalizing w with
  | nil => rfl
  | cons n ms ih =>
    rw [List.foldl_cons, ih (calcFitness w n), calcFitness_neighbors]

theorem foldCalc_xy (ms : List Nat) (w : World) (m : Nat) :
    (nth ((ms.foldl (fun acc n => calcFitness acc n) w)).pop m).x = (nth w.pop m).x ∧
    (nth ((ms.foldl (fun acc n => calcFitness acc n) w)).pop m).y = (nth w.pop m).y := by
  induction ms generalizing w with
  | nil => exact ⟨rfl, rfl⟩
  | cons n ms ih =>
    rw [List.foldl_cons]
    obtain ⟨ihx, ihy⟩ := ih (calcFitness w n)
    obtain ⟨cx, cy⟩ := calcFitness_xy w n m
    exact ⟨ihx.trans cx, ihy.trans cy⟩

theorem repro_eq_of_not_flip (w : World) (id : Nat) (choice : ℚ)
    (h : reproNewCoop w id choice = (nth w.pop id).coop) : repro w id choice = w := by
  simp [repro, h]

theorem repro_eq_of_flip (w : World) (id : Nat) (choice : ℚ)
    (h : ¬ reproNewCoop w id choice = (nth w.pop id).coop) :
    repro w id choice =
      (nth w.pop id).neighbors.foldl (fun acc n => calcFitness acc n)
        (calcFitness (reproFlipBase w id choice) id) := by
  simp [repro, reproFlipBase, h]

theorem reproNewCoop_oob (w : World) (id : Nat) (choice : ℚ) (h : w.pop.length ≤ id) :
    reproNewCoop w id choice = (nth w.pop id).coop := by
  unfold reproNewCoop
  rw [nth_oob _ _ h]
  show (if totalFitness w.pop defaultOrg.neighbors > 0 then _ else _) = _
  simp [defaultOrg, totalFitness]

theorem repro_flip_in_range (w : World) (id : Nat) (choice : ℚ)
    (h : ¬ reproNewCoop w id choice = (nth w.pop id).coop) : id < w.pop.length := by
  by_contra hc
  exact h (reproNewCoop_oob w id choice (Nat.le_of_not_lt hc))

theorem nth_setCoop (p : List Org) (id : Nat) (b : Bool) (m : Nat) :
    nth (p.set id { nth p id with coop := b }) m =
      if m = id ∧ id < p.length then { nth p m with coop := b } else nth p m := by
  by_cases hi : id < p.length
  · by_cases hm : m = id
    · subst hm
      rw [nth_set_self _ _ _ hi]
      simp [hi]
    · rw [nth_set_ne _ _ _ _ (fun h => hm h.symm)]
      simp [hm]
  · rw [set_oob _ _ _ (Nat.le_of_not_lt hi)]
    simp [hi]

theorem nth_reproFlipBase (w : World) (id : Nat) (choice : ℚ) (m : Nat) :
    nth (reproFlipBase w id choice).pop m =
      if m = id ∧ id < w.pop.length then
        { nth w.pop m with coop := reproNewCoop w id choice }
      else nth w.pop m := by
  show nth (w.pop.set id _) m = _
  rw [nth_setCoop]

theorem length_reproFlipBase (w : World) (id : Nat) (choice : ℚ) :
    (reproFlipBase w id choice).pop.length = w.pop.length := by
  show (w.pop.set id _).length = w.pop.length
  exact List.length_set w.pop id _

theorem repro_scalars (w : World) (id : Nat) (choice : ℚ) :
    scalarsEq (repro w id choice) w := by
  by_cases h : reproNewCoop w id choice = (nth w.pop id).coop
  · rw [repro_eq_of_not_flip w id choice h]
    exact scalarsEq_refl w
  · rw [repro_eq_of_flip w id choice h]
    exact scalarsEq_trans _ _ _ (foldCalc_scalars _ _)
      (scalarsEq_trans _ _ _ (calcFitness_scalars _ _) (scalarsEq_refl w))

theorem length_repro (w : World) (id : Nat) (choice : ℚ) :
    (repro w id choice).pop.length = w.pop.length := by
  by_cases h : reproNewCoop w id choice = (nth w.pop id).coop
  · rw [repro_eq_of_not_flip w id choice h]
  · rw [repro_eq_of_flip w id choice h, length_foldCalc, length_calcFitness,
      length_reproFlipBase]

theorem repro_neighbors (w : World) (id : Nat) (choice : ℚ) (m : Nat) :
    (nth (repro w id choice).pop m).neighbors = (nth w.pop m).neighbors := by
  by_cases h : reproNewCoop w id choice = (nth w.pop id).coop
  · rw [repro_eq_of_not_flip w id choice h]
  · rw [repro_eq_of_flip w id choice h, foldCalc_neighbors, calcFitness_neighbors,
      nth_reproFlipBase]
    split
    · rfl
    · rfl

theorem repro_xy (w : World) (id : Nat) (choice : ℚ) (m : Nat) :
    (nth (repro w id choice).pop m).x = (nth w.pop m).x ∧
    (nth (repro w id choice).pop m).y = (nth w.pop m).y := by
  by_cases h : reproNewCoop w id choice = (nth w.pop id).coop
  · rw [repro_eq_of_not_flip w id choice h]
    exact ⟨rfl, rfl⟩
  · rw [repro_eq_of_flip w id choice h]
    obtain ⟨fx, fy⟩ := foldCalc_xy (nth w.pop id).neighbors
      (calcFitness (reproFlipBase w id choice) id) m
    obtain ⟨cx, cy⟩ := calcFitness_xy (reproFlipBase w id choice) id m
    have hb := nth_reproFlipBase w id choice m
    constructor
    · rw [fx, cx, hb]
      split
      · rfl
      · rfl
    · rw [fy, cy, hb]
      split
      · rfl
      · rfl

theorem repro_coop_ne (w : World) (id : Nat) (choice : ℚ) (m : Nat) (hm : m ≠ id) :
    (nth (repro w id choice).pop m).coop = (nth w.pop m).coop := by
  by_cases h : reproNewCoop w id choice = (nth w.pop id).coop
  · rw [repro_eq_of_not_flip w id choice h]
  · rw [repro_eq_of_flip w id choice h, foldCalc_coop, calcFitness_coop,
      nth_reproFlipBase]
    simp [hm]

theorem repro_coop_id (w : World) (id : Nat) (choice : ℚ) :
    (nth (repro w id choice).pop id).coop = reproNewCoop w id choice := by
  by_cases h : reproNewCoop w id choice = (nth w.pop id).coop
  · rw [repro_eq_of_not_flip w id choice h, h]
  · have hid : id < w.pop.length := repro_flip_in_range w id choice h
    rw [repro_eq_of_flip w id choice h, foldCalc_coop, calcFitness_coop,
      nth_reproFlipBase]
    simp [hid]

end SimplePDWorld

namespace SimplePDWorld

/-! ## Repro preserves the invariant. -/

theorem repro_fitnessConsistent (w : World) (id : Nat) (choice : ℚ) (hok : StateOK w) :
    fitnessConsistent (repro w id choice) := by
  by_cases h : reproNewCoop w id choice = (nth w.pop id).coop
  · rw [repro_eq_of_not_flip w id choice h]
    exact hok.fit
  · have hid : id < w.pop.length := repro_flip_in_range w id choice h
    have hidN : id < w.N := by rw [← hok.len]; exact hid
    obtain ⟨sr, su, sN, sE, sAve, sep, srs, sCC, sCD, sDC, sDD⟩ :=
      repro_scalars w id choice
    intro m hm0
    have hmN : m < w.N := by rw [sN] at hm0; exact hm0
    rw [sAve, sCC, sCD, sDC, sDD]
    have hfold : repro w id choice =
        (id :: (nth w.pop id).neighbors).foldl (fun acc n => calcFitness acc n)
          (reproFlipBase w id choice) := by
      rw [repro_eq_of_flip w id choice h, List.foldl_cons]
    have hms : ∀ n ∈ id :: (nth w.pop id).neighbors,
        n < (reproFlipBase w id choice).pop.length := by
      intro n hn
      rw [length_reproFlipBase]
      rcases List.mem_cons.mp hn with he | hm2
      · rw [he]; exact hid
      · have h1 : n < w.N := hok.nbrs_lt id hidN n hm2
        have h2 := hok.len
        omega
    by_cases hmem : m ∈ id :: (nth w.pop id).neighbors
    · rw [hfold, nth_foldCalc (id :: (nth w.pop id).neighbors)
        (reproFlipBase w id choice) hms m, if_pos hmem]
      show fitnessVal w.use_ave w.payoff_CC w.payoff_CD w.payoff_DC w.payoff_DD
        (reproFlipBase w id choice).pop (nth (reproFlipBase w id choice).pop m) = _
      apply fitnessVal_congr
      · rfl
      · rfl
      · intro n _
        exact (foldCalc_coop (id :: (nth w.pop id).neighbors)
          (reproFlipBase w id choice) n).symm
    · have hmid : m ≠ id := fun he => hmem (by rw [he]; exact List.mem_cons_self _ _)
      have hbm : nth (reproFlipBase w id choice).pop m = nth w.pop m := by
        rw [nth_reproFlipBase]
        simp [hmid]
      rw [hfold, nth_foldCalc (id :: (nth w.pop id).neighbors)
        (reproFlipBase w id choice) hms m, if_neg hmem, hbm, hok.fit m hmN]
      apply fitnessVal_congr
      · rfl
      · rfl
      · intro n hn
        have hnid : n ≠ id := by
          intro he
          rw [he] at hn
          have : m ∈ (nth w.pop id).neighbors :=
            (hok.symm m id hmN hidN).mp hn
          exact hmem (List.mem_cons_of_mem id this)
        rw [foldCalc_coop, nth_reproFlipBase]
        simp [hnid]

theorem repro_StateOK (w : World) (id : Nat) (choice : ℚ) (hok : StateOK w) :
    StateOK (repro w id choice) := by
  obtain ⟨sr, su, sN, sE, sAve, sep, srs, sCC, sCD, sDC, sDD⟩ := repro_scalars w id choice
  refine ⟨?_, ?_, ?_, ?_, ?_, ?_, ?_⟩
  · rw [length_repro, sN, hok.len]
  · intro k hk j hj
    rw [sN] at hk ⊢
    rw [repro_neighbors] at hj
    exact hok.nbrs_lt k hk j hj
  · intro k hk
    rw [sN] at hk
    rw [repro_neighbors]
    exact hok.nbrs_sorted k hk
  · intro k hk
    rw [sN] at hk
    rw [repro_neighbors]
    exact hok.nbrs_noself k hk
  · intro k j hk hj
    rw [sN] at hk hj
    rw [repro_neighbors, repro_neighbors]
    exact hok.symm k j hk hj
  · exact repro_fitnessConsistent w id choice hok
  · rw [sCC, sCD, sDC, sDD, su]
    exact hok.pay

end SimplePDWorld

namespace SimplePDWorld

/-! ## The epoch loop. -/

theorem foldRepro_StateOK (l : List Nat) (d : Nat → Nat × ℚ) (w : World)
    (hok : StateOK w) :
    StateOK (l.foldl (fun acc o => repro acc (d o).1 (d o).2) w) := by
  induction l generalizing w with
  | nil => exact hok
  | cons o l ih =>
    rw [List.foldl_cons]
    exact ih (repro w (d o).1 (d o).2) (repro_StateOK w (d o).1 (d o).2 hok)

theorem foldRepro_scalars (l : List Nat) (d : Nat → Nat × ℚ) (w : World) :
    scalarsEq (l.foldl (fun acc o => repro acc (d o).1 (d o).2) w) w := by
  induction l generalizing w with
  | nil => exact scalarsEq_refl w
  | cons o l ih =>
    rw [List.foldl_cons]
    exact scalarsEq_trans _ _ _ (ih (repro w (d o).1 (d o).2))
      (repro_scalars w (d o).1 (d o).2)

theorem epochSet_StateOK (w : World) (e : Nat) (hok : StateOK w) :
    StateOK { w with epoch := e } :=
  ⟨hok.len, hok.nbrs_lt, hok.nbrs_sorted, hok.nbrs_noself, hok.symm, hok.fit, hok.pay⟩

theorem epochStep_StateOK (w : World) (d : Nat → Nat × ℚ) (hok : StateOK w) :
    StateOK (epochStep w d) := by
  unfold epochStep
  exact epochSet_StateOK _ _ (foldRepro_StateOK (List.range w.N) d w hok)

theorem epochStep_epoch (w : World) (d : Nat → Nat × ℚ) :
    (epochStep w d).epoch = w.epoch + 1 := by
  unfold epochStep
  show ((List.range w.N).foldl (fun acc o => repro acc (d o).1 (d o).2) w).epoch + 1 =
    w.epoch + 1
  rw [(foldRepro_scalars (List.range w.N) d w).2.2.2.2.2.1]

theorem epochStep_N (w : World) (d : Nat → Nat × ℚ) : (epochStep w d).N = w.N := by
  unfold epochStep
  show ((List.range w.N).foldl (fun acc o => repro acc (d o).1 (d o).2) w).N = w.N
  rw [(foldRepro_scalars (List.range w.N) d w).2.2.1]

theorem epochStep_E (w : World) (d : Nat → Nat × ℚ) : (epochStep w d).E = w.E := by
  unfold epochStep
  show ((List.range w.N).foldl (fun acc o => repro acc (d o).1 (d o).2) w).E = w.E
  rw [(foldRepro_scalars (List.range w.N) d w).2.2.2.1]

theorem runEpochs_epoch (k : Nat) (draws : Nat → Nat → Nat × ℚ) (w : World) :
    (runEpochs w k draws).epoch = w.epoch + k := by
  induction k generalizing w with
  | zero => rfl
  | succ k ih =>
    show (runEpochs (epochStep w (draws w.epoch)) k draws).epoch = w.epoch + (k + 1)
    rw [ih (epochStep w (draws w.epoch)), epochStep_epoch]
    omega

theorem runEpochs_N (k : Nat) (draws : Nat → Nat → Nat × ℚ) (w : World) :
    (runEpochs w k draws).N = w.N := by
  induction k generalizing w with
  | zero => rfl
  | succ k ih =>
    show (runEpochs (epochStep w (draws w.epoch)) k draws).N = w.N
    rw [ih (epochStep w (draws w.epoch)), epochStep_N]

theorem runEpochs_E (k : Nat) (draws : Nat → Nat → Nat × ℚ) (w : World) :
    (runEpochs w k draws).E = w.E := by
  induction k generalizing w with
  | zero => rfl
  | succ k ih =>
    show (runEpochs (epochStep w (draws w.epoch)) k draws).E = w.E
    rw [ih (epochStep w (draws w.epoch)), epochStep_E]

theorem runEpochs_StateOK (k : Nat) (draws : Nat → Nat → Nat × ℚ) (w : World)
    (hok : StateOK w) : StateOK (runEpochs w k draws) := by
  induction k generalizing w with
  | zero => exact hok
  | succ k ih =>
    show StateOK (runEpochs (epochStep w (draws w.epoch)) k draws)
    exact ih (epochStep w (draws w.epoch)) (epochStep_StateOK w (draws w.epoch) hok)

theorem run_eq_runEpochs (w : World) (steps : Nat) (draws : Nat → Nat → Nat × ℚ) :
    run w steps draws = runEpochs w (min steps w.E) draws := by
  show runEpochs w (if steps > w.E then w.E else steps) draws = _
  by_cases h : steps > w.E
  · rw [if_pos h, Nat.min_eq_right (Nat.le_of_lt h)]
  · rw [if_neg h, Nat.min_eq_left (Nat.le_of_not_lt h)]

theorem run_epoch (w : World) (steps : Nat) (draws : Nat → Nat → Nat × ℚ) :
    (run w steps draws).epoch = w.epoch + min steps w.E := by
  rw [run_eq_runEpochs, runEpochs_epoch]

theorem run_StateOK (w : World) (steps : Nat) (draws : Nat → Nat → Nat × ℚ)
    (hok : StateOK w) : StateOK (run w steps draws) := by
  rw [run_eq_runEpochs]
  exact runEpochs_StateOK _ draws w hok

theorem reachable_StateOK (w : World) (h : Reachable w) : StateOK w := by
  induction h with
  | ofSetup r u N E ave draws => exact setup_StateOK r u N E ave draws
  | ofRepro w id choice _ ih => exact repro_StateOK w id choice ih
  | ofRun w steps draws _ ih => exact run_StateOK w steps draws ih

/-! ## The instrumented run: counting reproduction calls. -/

theorem foldReproCounted_eq (l : List Nat) (d : Nat → Nat × ℚ) (w : World) (c : Nat) :
    l.foldl (fun acc o => reproCounted acc (d o).1 (d o).2) (w, c) =
      (l.foldl (fun acc o => repro acc (d o).1 (d o).2) w, c + l.length) := by
  induction l generalizing w c with
  | nil => rfl
  | cons o l ih =>
    rw [List.foldl_cons, List.foldl_cons,
      show reproCounted (w, c) (d o).1 (d o).2 = (repro w (d o).1 (d o).2, c + 1) from rfl,
      ih (repro w (d o).1 (d o).2) (c + 1)]
    have hc : c + 1 + l.length = c + (o :: l).length := by
      rw [List.length_cons]
      omega
    rw [hc]

theorem epochStepCounted_eq (w : World) (c : Nat) (d : Nat → Nat × ℚ) :
    epochStepCounted (w, c) d = (epochStep w d, c + w.N) := by
  unfold epochStepCounted epochStep
  rw [show ((w, c) : World × Nat).1 = w from rfl,
    foldReproCounted_eq (List.range w.N) d w c, List.length_range]

theorem runEpochsCounted_eq (k : Nat) (draws : Nat → Nat → Nat × ℚ) (w : World)
    (c : Nat) :
    runEpochsCounted (w, c) k draws = (runEpochs w k draws, c + k * w.N) := by
  induction k generalizing w c with
  | zero => simp [runEpochsCounted, runEpochs]
  | succ k ih =>
    show runEpochsCounted (epochStepCounted (w, c) (draws w.epoch)) k draws = _
    rw [epochStepCounted_eq, ih (epochStep w (draws w.epoch)) (c + w.N)]
    have h1 : (epochStep w (draws w.epoch)).N = w.N := epochStep_N w (draws w.epoch)
    rw [h1]
    have h2 : c + w.N + k * w.N = c + (k + 1) * w.N := by ring
    rw [h2]
    rfl

theorem runCounted_eq (w : World) (steps : Nat) (draws : Nat → Nat → Nat × ℚ) :
    runCounted w steps draws = (run w steps draws, min steps w.E * w.N) := by
  show runEpochsCounted (w, 0) (if steps > w.E then w.E else steps) draws = _
  rw [runEpochsCounted_eq, run_eq_runEpochs]
  by_cases h : steps > w.E
  · rw [if_pos h, Nat.min_eq_right (Nat.le_of_lt h), Nat.zero_add]
  · rw [if_neg h, Nat.min_eq_left (Nat.le_of_not_lt h), Nat.zero_add]

end SimplePDWorld

namespace SimplePDWorld

/-! ## The selection walk. -/

theorem walk_eq_firstCumAdopt (p : List Org) (ns : List Nat) (choice acc : ℚ)
    (cur : Bool) :
    walkNeighbors p ns (choice - acc) cur = (firstCumAdopt p ns choice acc).getD cur := by
  induction ns generalizing acc with
  | nil => rfl
  | cons n rest ih =>
    show (if choice - acc < (nth p n).fitness then _ else _) = _
    by_cases h : choice - acc < (nth p n).fitness
    · have h2 : choice < acc + (nth p n).fitness := by linarith
      rw [if_pos h]
      simp [firstCumAdopt, h2]
    · have h2 : ¬ (choice < acc + (nth p n).fitness) := by
        intro hh
        exact h (by linarith)
      rw [if_neg h]
      have h3 : choice - acc - (nth p n).fitness = choice - (acc + (nth p n).fitness) := by
        ring
      rw [h3, ih (acc + (nth p n).fitness)]
      simp [firstCumAdopt, h2]

theorem walk_eq_firstCumAdopt_zero (p : List Org) (ns : List Nat) (choice : ℚ)
    (cur : Bool) :
    walkNeighbors p ns choice cur = (firstCumAdopt p ns choice 0).getD cur := by
  have := walk_eq_firstCumAdopt p ns choice 0 cur
  rw [sub_zero] at this
  exact this

theorem walk_cases (p : List Org) (ns : List Nat) (choice : ℚ) (cur : Bool) :
    walkNeighbors p ns choice cur = cur ∨
      ∃ n ∈ ns, walkNeighbors p ns choice cur = (nth p n).coop := by
  induction ns generalizing choice with
  | nil => exact Or.inl rfl
  | cons n rest ih =>
    by_cases h : choice < (nth p n).fitness
    · refine Or.inr ⟨n, List.mem_cons_self n rest, ?_⟩
      show (if choice < (nth p n).fitness then (nth p n).coop
        else walkNeighbors p rest (choice - (nth p n).fitness) cur) = _
      rw [if_pos h]
    · have hw : walkNeighbors p (n :: rest) choice cur =
          walkNeighbors p rest (choice - (nth p n).fitness) cur := by
        show (if choice < (nth p n).fitness then (nth p n).coop
          else walkNeighbors p rest (choice - (nth p n).fitness) cur) = _
        rw [if_neg h]
      rw [hw]
      rcases ih (choice - (nth p n).fitness) with h1 | ⟨m, hm, h2⟩
      · exact Or.inl h1
      · exact Or.inr ⟨m, List.mem_cons_of_mem n hm, h2⟩

theorem reproNewCoop_cases (w : World) (id : Nat) (choice : ℚ) :
    reproNewCoop w id choice = (nth w.pop id).coop ∨
      ∃ n ∈ (nth w.pop id).neighbors,
        reproNewCoop w id choice = (nth w.pop n).coop := by
  unfold reproNewCoop
  by_cases h1 : totalFitness w.pop (nth w.pop id).neighbors > 0
  · by_cases h2 : choice < totalFitness w.pop (nth w.pop id).neighbors
    · rw [if_pos h1, if_pos h2]
      exact walk_cases w.pop (nth w.pop id).neighbors choice (nth w.pop id).coop
    · rw [if_pos h1, if_neg h2]
      exact Or.inl rfl
  · rw [if_neg h1]
    exact Or.inl rfl

/-! ## Run and Repro never touch neighbor lists. -/

theorem foldRepro_neighbors (l : List Nat) (d : Nat → Nat × ℚ) (w : World) (m : Nat) :
    (nth ((l.foldl (fun acc o => repro acc (d o).1 (d o).2) w)).pop m).neighbors =
      (nth w.pop m).neighbors := by
  induction l generalizing w with
  | nil => rfl
  | cons o l ih =>
    rw [List.foldl_cons, ih (repro w (d o).1 (d o).2), repro_neighbors]

theorem epochStep_neighbors (w : World) (d : Nat → Nat × ℚ) (m : Nat) :
    (nth (epochStep w d).pop m).neighbors = (nth w.pop m).neighbors := by
  unfold epochStep
  show (nth ((List.range w.N).foldl (fun acc o => repro acc (d o).1 (d o).2) w).pop
    m).neighbors = _
  rw [foldRepro_neighbors]

theorem runEpochs_neighbors (k : Nat) (draws : Nat → Nat → Nat × ℚ) (w : World)
    (m : Nat) :
    (nth (runEpochs w k draws).pop m).neighbors = (nth w.pop m).neighbors := by
  induction k generalizing w with
  | zero => rfl
  | succ k ih =>
    show (nth (runEpochs (epochStep w (draws w.epoch)) k draws).pop m).neighbors = _
    rw [ih (epochStep w (draws w.epoch)), epochStep_neighbors]

theorem run_neighbors (w : World) (steps : Nat) (draws : Nat → Nat → Nat × ℚ) (m : Nat) :
    (nth (run w steps draws).pop m).neighbors = (nth w.pop m).neighbors := by
  rw [run_eq_runEpochs, runEpochs_neighbors]

/-! ## The code's distance against the spec's wrapped distance. -/

theorem wrapDist_idem (d : ℚ) : wrapDist (wrapDist d) = wrapDist d := by
  unfold wrapDist
  by_cases h : d > 1 - d
  · rw [if_pos h]
    have h2 : ¬ (1 - d > 1 - (1 - d)) := by
      intro hh
      linarith
    rw [if_neg h2]
  · rw [if_neg h, if_neg h]

theorem distSqr_eq (o1 o2 : Org) :
    distSqr o1 o2 =
      wrapDist |o1.x - o2.x| * wrapDist |o1.x - o2.x| +
        |o1.y - o2.y| * |o1.y - o2.y| := by
  show wrapDist (wrapDist |o1.x - o2.x|) * wrapDist (wrapDist |o1.x - o2.x|) +
    |o1.y - o2.y| * |o1.y - o2.y| = _
  rw [wrapDist_idem]

end SimplePDWorld

namespace SimplePDWorld

theorem calcFitness_idem (w : World) (id : Nat) :
    calcFitness (calcFitness w id) id = calcFitness w id := by
  have key : ∀ (wz : World) (P : List Org), P = wz.pop →
      ({ wz with pop := P } : World) = wz := by
    intro wz P h
    rw [h]
  by_cases hid : id < w.pop.length
  · have h1 : nth (calcFitness w id).pop id =
        { nth w.pop id with
          fitness := fitnessVal w.use_ave w.payoff_CC w.payoff_CD w.payoff_DC w.payoff_DD
            w.pop (nth w.pop id) } := by
      rw [nth_calcFitness]
      simp [hid]
    have hv : fitnessVal (calcFitness w id).use_ave (calcFitness w id).payoff_CC
        (calcFitness w id).payoff_CD (calcFitness w id).payoff_DC
        (calcFitness w id).payoff_DD (calcFitness w id).pop
        (nth (calcFitness w id).pop id) =
        fitnessVal w.use_ave w.payoff_CC w.payoff_CD w.payoff_DC w.payoff_DD w.pop
          (nth w.pop id) :=
      fitnessVal_congr _ _ _ _ _ _ _ _ _ (calcFitness_coop w id id)
        (calcFitness_neighbors w id id) (fun a _ => calcFitness_coop w id a)
    refine key (calcFitness w id) _ ?_
    rw [hv, h1]
    show (w.pop.set id _).set id _ = _
    rw [List.set_set]
    rfl
  · refine key (calcFitness w id) _ ?_
    apply set_oob
    rw [length_calcFitness]
    exact Nat.le_of_not_lt hid

/-- C1 (corrected): `Run(steps)` caps `steps` at `E` — not at the remaining
budget `E - epoch` — and then performs exactly `min(steps, E)` epochs, each
consisting of exactly `N` reproduction calls (`runCounted` counts them) and
incrementing `epoch` once; so `epoch` ends at `epoch + min(steps, E)`, which
a second `Run` call can push past `E`. -/
theorem run_performs_min_steps_E (w : World) (steps : Nat)
    (draws : Nat → Nat → Nat × ℚ) :
    runCounted w steps draws = (run w steps draws, min steps w.E * w.N) ∧
    (run w steps draws).epoch = w.epoch + min steps w.E ∧
    run w steps draws = runEpochs w (min steps w.E) draws :=
  ⟨runCounted_eq w steps draws, run_epoch w steps draws, run_eq_runEpochs w steps draws⟩

/-- C1, counterexample to the claim as stated: from the reachable state
`Run(1)` leaves (`epoch = 1 = E`), a further `Run(1)` performs one more
epoch instead of `min(1, E - epoch) = 0`, leaving `epoch = 2 > E`. -/
theorem run_epoch_overshoot :
    (run (setup 0 0 0 1 false demoDraws) 1 demoReproDraws).epoch = 1 ∧
    (run (setup 0 0 0 1 false demoDraws) 1 demoReproDraws).E = 1 ∧
    (run (run (setup 0 0 0 1 false demoDraws) 1 demoReproDraws) 1
      demoReproDraws).epoch = 2 := by
  decide

/-- C2 (corrected): `Reset()` calls `Setup(r, u, N, E)` with the four stored
scalars but without `use_ave`, so `Setup`'s `_ave` parameter defaults to
`false`: `r`, `u`, `N`, `E` are preserved and `epoch` restarts at 0, while
`use_average` is reset to `false` regardless of its stored value. -/
theorem reset_reinvokes_setup (w : World) (draws : Nat → ℚ × ℚ × Bool) :
    reset w draws = setup w.r w.u w.N w.E false draws ∧
    (reset w draws).r = w.r ∧ (reset w draws).u = w.u ∧ (reset w draws).N = w.N ∧
    (reset w draws).E = w.E ∧ (reset w draws).use_ave = false ∧
    (reset w draws).epoch = 0 := by
  obtain ⟨h1, h2, h3, h4, h5, h6, h7, h8, h9, h10, h11⟩ :=
    setup_scalars w.r w.u w.N w.E false draws
  exact ⟨rfl, h1, h2, h3, h4, h5, h6⟩

/-- C2, counterexample to the claim as stated: a world set up with
`use_average = true` comes out of `Reset()` with `use_average = false`, so
the configuration after `Reset` does not equal the stored configuration. -/
theorem reset_drops_use_ave :
    (setup 0 0 0 5 true demoDraws).use_ave = true ∧
    (reset (setup 0 0 0 5 true demoDraws) demoDraws).use_ave = false := by
  decide

/-- C3 (corrected): after `Setup`, for distinct agents `i, j < N`, `j` is in
`i`'s neighbor list iff `dx'*dx' + dy*dy < r²` where `dx'` is the
x-distance wrapped to the shorter arc and `dy` is the *raw* y-distance —
the wrap statement intended for `y` is applied to `x` a second time (a
no-op), so the y-coordinate is never wrapped. -/
theorem setup_neighbor_threshold (r u : ℚ) (N E : Nat) (ave : Bool)
    (draws : Nat → ℚ × ℚ × Bool) (i j : Nat) (hi : i < N) (hj : j < N)
    (hij : i ≠ j) :
    (j ∈ (nth (setup r u N E ave draws).pop i).neighbors ↔
      wrapDist |(nth (setup r u N E ave draws).pop i).x -
          (nth (setup r u N E ave draws).pop j).x| *
        wrapDist |(nth (setup r u N E ave draws).pop i).x -
          (nth (setup r u N E ave draws).pop j).x| +
        |(nth (setup r u N E ave draws).pop i).y -
          (nth (setup r u N E ave draws).pop j).y| *
        |(nth (setup r u N E ave draws).pop i).y -
          (nth (setup r u N E ave draws).pop j).y| <
      (setup r u N E ave draws).r_sqr) := by
  obtain ⟨hxi, hyi, hci, hni⟩ := setup_core r u N E ave draws i hi
  obtain ⟨hxj, hyj, hcj, hnj⟩ := setup_core r u N E ave draws j hj
  rw [setup_mem_neighbors r u N E ave draws i j hi,
    nth_setupPop0 N draws i hi, nth_setupPop0 N draws j hj, distSqr_eq,
    hxi, hxj, hyi, hyj, (setup_scalars r u N E ave draws).2.2.2.2.2.2.1]
  constructor
  · rintro ⟨_, _, h⟩
    exact h
  · intro h
    exact ⟨hj, fun he => hij he.symm, h⟩

/-- C3, witness: in the two-agent demo world the pair is an edge and the
wrapped-x / raw-y distance is below the squared radius. -/
theorem setup_neighbor_threshold_witness :
    (1 ∈ (nth demoWorld.pop 0).neighbors ↔
      wrapDist |(nth demoWorld.pop 0).x - (nth demoWorld.pop 1).x| *
        wrapDist |(nth demoWorld.pop 0).x - (nth demoWorld.pop 1).x| +
        |(nth demoWorld.pop 0).y - (nth demoWorld.pop 1).y| *
        |(nth demoWorld.pop 0).y - (nth demoWorld.pop 1).y| <
      demoWorld.r_sqr) :=
  setup_neighbor_threshold 2 0 2 1 false demoDraws 0 1 (by omega) (by omega)
    (by omega)

/-- C3, counterexample to the claim as stated: two agents 0.02 apart across
the torus seam in `y` satisfy the both-axes-wrapped threshold
(`distSqrSpec` = 1/2500 < 1/100 = r²) yet are not neighbors, because the
code never wraps the y-distance (raw dy = 0.98). -/
theorem setup_wrap_axis_mismatch :
    distSqrSpec (nth (setup (1 / 10) 0 2 1 false wrapBugDraws).pop 0)
        (nth (setup (1 / 10) 0 2 1 false wrapBugDraws).pop 1) <
      (setup (1 / 10) 0 2 1 false wrapBugDraws).r_sqr ∧
    1 ∉ (nth (setup (1 / 10) 0 2 1 false wrapBugDraws).pop 0).neighbors := by
  obtain ⟨hx0, hy0, hc0, hn0⟩ := setup_core (1 / 10) 0 2 1 false wrapBugDraws 0 (by omega)
  obtain ⟨hx1, hy1, hc1, hn1⟩ := setup_core (1 / 10) 0 2 1 false wrapBugDraws 1 (by omega)
  have hrs := (setup_scalars (1 / 10) 0 2 1 false wrapBugDraws).2.2.2.2.2.2.1
  constructor
  · unfold distSqrSpec
    rw [hx0, hx1, hy0, hy1, hrs]
    norm_num [wrapBugDraws, wrapDist, abs_of_nonneg, abs_of_nonpos]
  · rw [setup_mem_neighbors (1 / 10) 0 2 1 false wrapBugDraws 0 1 (by omega)]
    rintro ⟨h1, h2, h3⟩
    rw [nth_setupPop0 2 wrapBugDraws 0 (by omega),
      nth_setupPop0 2 wrapBugDraws 1 (by omega), distSqr_eq] at h3
    norm_num [initOrg, wrapBugDraws, wrapDist, abs_of_nonneg, abs_of_nonpos] at h3

end SimplePDWorld

namespace SimplePDWorld

/-- C4 (confirmed): in every reachable state — right after `Setup` and
after any sequence of `Repro`/`Run` calls — every agent's stored fitness
equals the value `CalcFitness` computes from the current strategies
(`fitnessConsistent`), and a `Repro` whose pick does not flip the picked
agent's strategy returns with the state unchanged, performing no
recomputation. -/
theorem reachable_fitness_consistent (w : World) (hw : Reachable w) :
    fitnessConsistent w ∧
      ∀ id choice, reproNewCoop w id choice = (nth w.pop id).coop →
        repro w id choice = w :=
  ⟨(reachable_StateOK w hw).fit,
    fun id choice h => repro_eq_of_not_flip w id choice h⟩

/-- C4, witness at the concrete two-agent demo world. -/
theorem reachable_fitness_consistent_witness :
    fitnessConsistent demoWorld ∧
      ∀ id choice, reproNewCoop demoWorld id choice = (nth demoWorld.pop id).coop →
        repro demoWorld id choice = demoWorld :=
  reachable_fitness_consistent demoWorld (Reachable.ofSetup 2 0 2 1 false demoDraws)

/-- C5 (confirmed): one `Repro` call with pick `id` and draw `choice`
changes no strategy but possibly `id`'s; if the neighbor-fitness total is
non-positive or the draw lands at or beyond it, the whole state is
unchanged; the picked agent ends with either its prior strategy or the
strategy of one of its stored neighbors; and the selection is exactly
"first neighbor in stored order whose cumulative fitness exceeds the
draw" (`firstCumAdopt`), falling back to the prior strategy. -/
theorem repro_conservation (w : World) (id : Nat) (choice : ℚ) :
    ((totalFitness w.pop (nth w.pop id).neighbors ≤ 0 ∨
        totalFitness w.pop (nth w.pop id).neighbors ≤ choice) →
      repro w id choice = w) ∧
    (∀ m, m ≠ id → (nth (repro w id choice).pop m).coop = (nth w.pop m).coop) ∧
    ((nth (repro w id choice).pop id).coop = (nth w.pop id).coop ∨
      ∃ n ∈ (nth w.pop id).neighbors,
        (nth (repro w id choice).pop id).coop = (nth w.pop n).coop) ∧
    reproNewCoop w id choice =
      (if totalFitness w.pop (nth w.pop id).neighbors > 0 ∧
          choice < totalFitness w.pop (nth w.pop id).neighbors then
        (firstCumAdopt w.pop (nth w.pop id).neighbors choice 0).getD
          (nth w.pop id).coop
       else (nth w.pop id).coop) := by
  refine ⟨?_, ?_, ?_, ?_⟩
  · intro h
    apply repro_eq_of_not_flip
    unfold reproNewCoop
    rcases h with h1 | h2
    · rw [if_neg (by intro hh; linarith)]
    · by_cases hp : totalFitness w.pop (nth w.pop id).neighbors > 0
      · rw [if_pos hp, if_neg (by intro hh; linarith)]
      · rw [if_neg hp]
  · intro m hm
    exact repro_coop_ne w id choice m hm
  · rw [repro_coop_id]
    exact reproNewCoop_cases w id choice
  · unfold reproNewCoop
    by_cases h1 : totalFitness w.pop (nth w.pop id).neighbors > 0
    · by_cases h2 : choice < totalFitness w.pop (nth w.pop id).neighbors
      · rw [if_pos h1, if_pos h2, if_pos ⟨h1, h2⟩]
        exact walk_eq_firstCumAdopt_zero w.pop (nth w.pop id).neighbors choice
          (nth w.pop id).coop
      · rw [if_pos h1, if_neg h2, if_neg (by intro hh; exact h2 hh.2)]
    · rw [if_neg h1, if_neg (by intro hh; exact h1 hh.1)]

/-- C6 (confirmed): on a reachable state, `CalcFitness(id)` stores
`Cc*row_C + Cd*row_D` with the cooperator row `(1, 0)` and the defector
row `(1+u, u)`, divided by the neighbor count when `use_ave` is set; and a
second call with no intervening mutation stores the same value
(idempotence). -/
theorem calcFitness_payoff_rows (w : World) (hw : Reachable w) (id : Nat)
    (hid : id < w.N) :
    ((nth (calcFitness w id).pop id).fitness =
      (let cc : ℚ := ((nth w.pop id).neighbors.countP (fun n => (nth w.pop n).coop) : ℚ)
       let cd : ℚ :=
         ((nth w.pop id).neighbors.countP (fun n => !(nth w.pop n).coop) : ℚ)
       let raw : ℚ := if (nth w.pop id).coop then cc * 1 + cd * 0
         else cc * (1 + w.u) + cd * w.u
       if w.use_ave then raw / ((nth w.pop id).neighbors.length : ℚ) else raw)) ∧
    calcFitness (calcFitness w id) id = calcFitness w id := by
  have hok := reachable_StateOK w hw
  obtain ⟨hCC, hCD, hDC, hDD⟩ := hok.pay
  constructor
  · have hidlen : id < w.pop.length := by rw [hok.len]; exact hid
    have h1 : nth (calcFitness w id).pop id =
        { nth w.pop id with
          fitness := fitnessVal w.use_ave w.payoff_CC w.payoff_CD w.payoff_DC
            w.payoff_DD w.pop (nth w.pop id) } := by
      rw [nth_calcFitness]
      simp [hidlen]
    rw [h1]
    show fitnessVal w.use_ave w.payoff_CC w.payoff_CD w.payoff_DC w.payoff_DD w.pop
      (nth w.pop id) = _
    rw [hCC, hCD, hDC, hDD]
    by_cases hc : (nth w.pop id).coop
    · by_cases ha : w.use_ave
      · simp [fitnessVal, hc, ha]
        try ring_nf
      · simp [fitnessVal, hc, ha]
        try ring_nf
    · by_cases ha : w.use_ave
      · simp [fitnessVal, hc, ha]
        try ring_nf
      · simp [fitnessVal, hc, ha]
        try ring_nf
  · exact calcFitness_idem w id

/-- C7 (confirmed): in every reachable state the neighbor relation is
symmetric — `j` is in `i`'s list iff `i` is in `j`'s — since only `Setup`
writes the lists and it records each edge in both. -/
theorem reachable_neighbor_symm (w : World) (hw : Reachable w) (i j : Nat)
    (hi : i < w.N) (hj : j < w.N) :
    j ∈ (nth w.pop i).neighbors ↔ i ∈ (nth w.pop j).neighbors :=
  (reachable_StateOK w hw).symm i j hi hj

/-- C8 (confirmed): `CalcFitness` on an isolated agent under
`use_ave = true` performs the unguarded division of the (exactly zero)
total by the zero neighbor count; at IEEE-754 semantics that is a defined
total computation producing the quiet NaN — the `none` sentinel of the
model — not a crash. -/
theorem isolated_agent_average_nan (pCC pCD pDC pDD : ℚ) (p : List Org) (org : Org)
    (h : org.neighbors = []) :
    calcFitnessIEEE true pCC pCD pDC pDD p org = none := by
  simp [calcFitnessIEEE, h]

/-- C8, witness: the default (isolated) organism. -/
theorem isolated_agent_average_nan_witness :
    calcFitnessIEEE true 1 0 1 0 [] defaultOrg = none :=
  isolated_agent_average_nan 1 0 1 0 [] defaultOrg rfl

/-- C10 (confirmed): in every reachable state the population has length
`N`, every stored neighbor index is below `N`, no list contains its own
agent, every list is strictly increasing (hence duplicate-free), and
neither `Repro` nor `Run` modifies any neighbor list. -/
theorem reachable_neighbors_wellformed (w : World) (hw : Reachable w) :
    w.pop.length = w.N ∧
    (∀ k, k < w.N → (∀ j ∈ (nth w.pop k).neighbors, j < w.N) ∧
      k ∉ (nth w.pop k).neighbors ∧ (nth w.pop k).neighbors.Pairwise (· < ·)) ∧
    (∀ id choice m,
      (nth (repro w id choice).pop m).neighbors = (nth w.pop m).neighbors) ∧
    (∀ steps draws m,
      (nth (run w steps draws).pop m).neighbors = (nth w.pop m).neighbors) := by
  have hok := reachable_StateOK w hw
  exact ⟨hok.len,
    fun k hk => ⟨hok.nbrs_lt k hk, hok.nbrs_noself k hk, hok.nbrs_sorted k hk⟩,
    fun id choice m => repro_neighbors w id choice m,
    fun steps draws m => run_neighbors w steps draws m⟩

/-- C10, witness at the concrete two-agent demo world. -/
theorem reachable_neighbors_wellformed_witness :
    demoWorld.pop.length = demoWorld.N ∧
    (∀ k, k < demoWorld.N → (∀ j ∈ (nth demoWorld.pop k).neighbors, j < demoWorld.N) ∧
      k ∉ (nth demoWorld.pop k).neighbors ∧
      (nth demoWorld.pop k).neighbors.Pairwise (· < ·)) ∧
    (∀ id choice m, (nth (repro demoWorld id choice).pop m).neighbors =
      (nth demoWorld.pop m).neighbors) ∧
    (∀ steps draws m, (nth (run demoWorld steps draws).pop m).neighbors =
      (nth demoWorld.pop m).neighbors) :=
  reachable_neighbors_wellformed demoWorld (Reachable.ofSetup 2 0 2 1 false demoDraws)

end SimplePDWorld

namespace SimplePDWorld

/-- C6, witness at the concrete two-agent demo world, agent 0. -/
theorem calcFitness_payoff_rows_witness :
    ((nth (calcFitness demoWorld 0).pop 0).fitness =
      (let cc : ℚ := ((nth demoWorld.pop 0).neighbors.countP
          (fun n => (nth demoWorld.pop n).coop) : ℚ)
       let cd : ℚ := ((nth demoWorld.pop 0).neighbors.countP
          (fun n => !(nth demoWorld.pop n).coop) : ℚ)
       let raw : ℚ := if (nth demoWorld.pop 0).coop then cc * 1 + cd * 0
         else cc * (1 + demoWorld.u) + cd * demoWorld.u
       if demoWorld.use_ave then raw / ((nth demoWorld.pop 0).neighbors.length : ℚ)
       else raw)) ∧
    calcFitness (calcFitness demoWorld 0) 0 = calcFitness demoWorld 0 :=
  calcFitness_payoff_rows demoWorld (Reachable.ofSetup 2 0 2 1 false demoDraws) 0
    (by decide)

/-- C7, witness at the concrete two-agent demo world. -/
theorem reachable_neighbor_symm_witness :
    1 ∈ (nth demoWorld.pop 0).neighbors ↔ 0 ∈ (nth demoWorld.pop 1).neighbors :=
  reachable_neighbor_symm demoWorld (Reachable.ofSetup 2 0 2 1 false demoDraws) 0 1
    (by decide) (by decide)

end SimplePDWorld

namespace QueueManager

/-- C9 (code_bug): the claim describes the documented precondition — the
assert must hold exactly when the queue is non-empty — which is what the
corrected copy (part_002 lines 72-82, `!IsEmpty()`) checks; but the copy
the claim also cites (part_001 lines 310-320, duplicated at part_002 lines
491-501) asserts `IsEmpty()`, so on the one-element queue the assertion
condition is false (the assert fires) even though the queue is non-empty,
the reverse of the claim. -/
theorem removeRun_assert_inverted :
    removeRunAssertOld [demoRun] = false ∧
    IsEmpty [demoRun] = false ∧
    removeRunAssertNew [demoRun] = true := by
  decide

end QueueManager
